import Mathlib

/-!
Verification development for the argon2-kdf crate: the parameter/record
model, the canonical PHC-style string codec, and the verification logic.
The crate's `hasher`, `lexer` and `error` modules are declared in
`src/lib.rs` but their bodies are not part of the visible sources, so the
definitions below are modelled from the specification of those modules
(each such definition says so in its doc comment).  Strings are embedded
as `List Char`, byte buffers as `List Nat` with an explicit `< 256` bound
where it matters, and the external Argon2 primitive as an abstract
`DeriveFn` together with the interface assumptions the spec states for it.
-/

namespace Argon2Kdf

/-- Modelled from the spec: the closed set of supported Argon2 variants
(the `Algorithm` enum re-exported by `lib.rs`). -/
inductive Algorithm where
  | Argon2d
  | Argon2i
  | Argon2id
deriving DecidableEq, Repr

/-- Modelled from the spec: the lowercase textual tag of each algorithm
variant, as it appears in the canonical string format. -/
def Algorithm.tag : Algorithm → List Char
  | .Argon2d => "argon2d".toList
  | .Argon2i => "argon2i".toList
  | .Argon2id => "argon2id".toList

/-- Modelled from the spec: recognize an algorithm tag; an unrecognized
tag is `none` (never a silent default). -/
def Algorithm.ofTag (cs : List Char) : Option Algorithm :=
  if cs = "argon2d".toList then some .Argon2d
  else if cs = "argon2i".toList then some .Argon2i
  else if cs = "argon2id".toList then some .Argon2id
  else none

/-- Modelled from the spec: the error taxonomy of the crate
(`Argon2Error` re-exported by `lib.rs`): configuration errors for builder
parameters outside the primitive's accepted domain, and format errors for
each field of a malformed canonical string. -/
inductive Argon2Error where
  | invalidFormat
  | unknownAlgorithm
  | invalidVersion
  | invalidParams
  | invalidSaltEncoding
  | invalidHashEncoding
  | saltLengthMismatch
  | hashLengthMismatch
  | invalidMemoryCost
  | invalidTimeCost
  | invalidParallelism
  | invalidSaltLength
  | invalidHashLength
deriving DecidableEq, Repr

/-- Decimal digit character for a value below ten. -/
def decChar : Nat → Char
  | 0 => '0'
  | 1 => '1'
  | 2 => '2'
  | 3 => '3'
  | 4 => '4'
  | 5 => '5'
  | 6 => '6'
  | 7 => '7'
  | 8 => '8'
  | _ => '9'

/-- Whether a character is a decimal digit. -/
def isDecDigit (c : Char) : Bool :=
  48 ≤ c.toNat && c.toNat ≤ 57

/-- Numeric value of a decimal digit character. -/
def digitVal (c : Char) : Nat := c.toNat - 48

/-- Fuel-driven decimal rendering; correct whenever `n ≤ fuel`. -/
def natDigitsAux : Nat → Nat → List Char
  | 0, n => [decChar (n % 10)]
  | fuel + 1, n =>
      if n < 10 then [decChar n]
      else natDigitsAux fuel (n / 10) ++ [decChar (n % 10)]

/-- Modelled from the spec: render a non-negative integer in decimal
(most significant digit first, no sign, no leading zeros except for 0). -/
def natDigits (n : Nat) : List Char := natDigitsAux n n

/-- Accumulating decimal parser: consumes digits, fails on any
non-digit character. -/
def parseNatFrom (acc : Nat) : List Char → Option Nat
  | [] => some acc
  | c :: rest =>
      if isDecDigit c then parseNatFrom (acc * 10 + digitVal c) rest
      else none

/-- Modelled from the spec: parse a non-empty all-digit string as an
unsigned decimal integer; anything else is a parse failure. -/
def parseNat? (cs : List Char) : Option Nat :=
  if cs.isEmpty then none else parseNatFrom 0 cs

/-- Base64 character of a 6-bit value (RFC 4648 standard alphabet). -/
def b64Char (n : Nat) : Char :=
  if n < 26 then Char.ofNat (65 + n)
  else if n < 52 then Char.ofNat (97 + (n - 26))
  else if n < 62 then Char.ofNat (48 + (n - 52))
  else if n = 62 then '+'
  else '/'

/-- Inverse of the RFC 4648 standard alphabet: 6-bit value of a base64
character, `none` for a character outside the alphabet. -/
def b64Index (c : Char) : Option Nat :=
  if 65 ≤ c.toNat ∧ c.toNat ≤ 90 then some (c.toNat - 65)
  else if 97 ≤ c.toNat ∧ c.toNat ≤ 122 then some (c.toNat - 97 + 26)
  else if 48 ≤ c.toNat ∧ c.toNat ≤ 57 then some (c.toNat - 48 + 52)
  else if c = '+' then some 62
  else if c = '/' then some 63
  else none

/-- Modelled from the spec: unpadded base64 encoding (RFC 4648 standard
alphabet) of a byte sequence, three bytes to four characters, with a
two- or three-character final group and no `=` padding. -/
def b64Encode : List Nat → List Char
  | a :: b :: c :: rest =>
      b64Char (a / 4) :: b64Char (a % 4 * 16 + b / 16) ::
      b64Char (b % 16 * 4 + c / 64) :: b64Char (c % 64) :: b64Encode rest
  | [a, b] => [b64Char (a / 4), b64Char (a % 4 * 16 + b / 16), b64Char (b % 16 * 4)]
  | [a] => [b64Char (a / 4), b64Char (a % 4 * 16)]
  | [] => []

/-- Modelled from the spec: strict unpadded base64 decoding; rejects any
character outside the standard alphabet and any group of length 1. -/
def b64Decode : List Char → Option (List Nat)
  | c1 :: c2 :: c3 :: c4 :: rest =>
      match b64Index c1, b64Index c2, b64Index c3, b64Index c4, b64Decode rest with
      | some n1, some n2, some n3, some n4, some tail =>
          some ((n1 * 4 + n2 / 16) :: (n2 % 16 * 16 + n3 / 4) :: (n3 % 4 * 64 + n4) :: tail)
      | _, _, _, _, _ => none
  | [c1, c2, c3] =>
      match b64Index c1, b64Index c2, b64Index c3 with
      | some n1, some n2, some n3 => some [n1 * 4 + n2 / 16, n2 % 16 * 16 + n3 / 4]
      | _, _, _ => none
  | [c1, c2] =>
      match b64Index c1, b64Index c2 with
      | some n1, some n2 => some [n1 * 4 + n2 / 16]
      | _, _ => none
  | [_] => none
  | [] => some []

/-- Modelled from the spec: split a character sequence on a separator;
`n` separators yield `n + 1` fields, possibly empty. -/
def splitOn (sep : Char) : List Char → List (List Char)
  | [] => [[]]
  | c :: rest =>
      if c = sep then [] :: splitOn sep rest
      else
        match splitOn sep rest with
        | [] => [[c]]
        | f :: fs => (c :: f) :: fs

/-- Modelled from the spec: an application-held pepper, a caller-supplied
byte buffer consumed by a single hashing or verification call. -/
abbrev Secret := List Nat

/-- Modelled from the spec: the typed Hash Record — algorithm, version,
cost parameters, salt bytes and derived-key bytes. -/
structure HashData where
  alg : Algorithm
  version : Nat
  memCost : Nat
  timeCost : Nat
  parallelism : Nat
  salt : List Nat
  key : List Nat
deriving DecidableEq, Repr

/-- The version field of the canonical string. -/
def versionField (v : Nat) : List Char :=
  'v' :: '=' :: natDigits v

/-- The comma-joined cost-parameter field of the canonical string. -/
def paramsField (m t p : Nat) : List Char :=
  ('m' :: '=' :: natDigits m) ++
    ',' :: (('t' :: '=' :: natDigits t) ++ ',' :: ('p' :: '=' :: natDigits p))

/-- Modelled from the spec: canonical encoding — a dollar-delimited
sequence of fields in fixed order: algorithm tag, version, comma-joined
cost parameters, unpadded base64 salt, unpadded base64 derived key, with
no trailing delimiter. -/
def HashData.toString (r : HashData) : List Char :=
  '$' :: (r.alg.tag ++
    '$' :: (versionField r.version ++
      '$' :: (paramsField r.memCost r.timeCost r.parallelism ++
        '$' :: (b64Encode r.salt ++ '$' :: b64Encode r.key))))

/-- Modelled from the spec: parse the version field — a mandatory
`v=` tag followed by a decimal integer. -/
def parseVersion : List Char → Option Nat
  | c1 :: c2 :: rest => if c1 = 'v' ∧ c2 = '=' then parseNat? rest else none
  | _ => none

/-- Modelled from the spec: parse one `k=<num>` component of the cost
parameter field, checking the key character. -/
def parseKeyVal (key : Char) : List Char → Option Nat
  | k :: e :: rest => if k = key ∧ e = '=' then parseNat? rest else none
  | _ => none

/-- Modelled from the spec: parse the cost-parameter field — exactly
`m=`, `t=`, `p=` in that order, comma-separated. -/
def parseParams (cs : List Char) : Option (Nat × Nat × Nat) :=
  match splitOn ',' cs with
  | [mf, tf, pf] =>
      match parseKeyVal 'm' mf, parseKeyVal 't' tf, parseKeyVal 'p' pf with
      | some m, some t, some p => some (m, t, p)
      | _, _, _ => none
  | _ => none

/-- Modelled from the spec: validate the dollar-separated fields of a
canonical string and reconstruct the record only once every field has
validated; each failure identifies the failing field. -/
def parseFields : List (List Char) → Except Argon2Error HashData
  | [[], tagF, vF, paramsF, saltF, hashF] =>
      match Algorithm.ofTag tagF with
      | none => .error .unknownAlgorithm
      | some alg =>
          match parseVersion vF with
          | none => .error .invalidVersion
          | some version =>
              match parseParams paramsF with
              | none => .error .invalidParams
              | some (m, t, p) =>
                  match b64Decode saltF with
                  | none => .error .invalidSaltEncoding
                  | some salt =>
                      match b64Decode hashF with
                      | none => .error .invalidHashEncoding
                      | some key => .ok ⟨alg, version, m, t, p, salt, key⟩
  | _ => .error .invalidFormat

/-- Modelled from the spec: the decoding half of the codec — tokenize on
dollar boundaries, then validate field count and every field. -/
def parseData (s : List Char) : Except Argon2Error HashData :=
  parseFields (splitOn '$' s)

/-- Modelled from the spec: the typed hash record with its compile-time
salt and derived-key lengths, mirroring the const-generic parameters of
the Rust `Hash<SALT_LEN, HASH_LEN>` type. -/
structure Hash (S K : Nat) where
  data : HashData
  salt_len : data.salt.length = S
  key_len : data.key.length = K

/-- Modelled from the spec: `from_str` for `Hash<S, K>` — parse the
canonical string and accept it only when the decoded salt and key have
exactly the lengths fixed by the type. -/
def Hash.fromStr (S K : Nat) (s : List Char) : Except Argon2Error (Hash S K) :=
  match parseData s with
  | .error e => .error e
  | .ok d =>
      if hs : d.salt.length = S then
        if hk : d.key.length = K then .ok ⟨d, hs, hk⟩
        else .error .hashLengthMismatch
      else .error .saltLengthMismatch

/-- Modelled from the spec: the external KDF primitive boundary —
`derive(algorithm, version, memory_cost, time_cost, parallelism,
password, salt, optional secret, output_length)`, deterministic given
identical inputs. -/
def DeriveFn : Type :=
  Algorithm → Nat → Nat → Nat → Nat → List Nat → List Nat → Option Secret → Nat → List Nat

/-- Interface assumption from the spec: the primitive returns exactly
`output_length` bytes. -/
def DeriveLenOk (derive : DeriveFn) : Prop :=
  ∀ a v m t p pw salt sec len, (derive a v m t p pw salt sec len).length = len

/-- Interface assumption from the spec: the primitive returns bytes,
each below 256. -/
def DeriveBytesOk (derive : DeriveFn) : Prop :=
  ∀ a v m t p pw salt sec len b, b ∈ derive a v m t p pw salt sec len → b < 256

/-- Modelled from the spec: accumulated OR of XORed byte pairs, the
data-independent core of the constant-time comparison. -/
def ctDiff : List Nat → List Nat → Nat
  | x :: xs, y :: ys => (x ^^^ y) ||| ctDiff xs ys
  | _, _ => 0

/-- Modelled from the spec: number of byte pairs the comparison routine
examines; it never exits early at a mismatch. -/
def ctExaminations : List Nat → List Nat → Nat
  | _ :: xs, _ :: ys => ctExaminations xs ys + 1
  | _, _ => 0

/-- Modelled from the spec: constant-time, full-length equality — true
only on an exact match of length and content. -/
def ctEq (a b : List Nat) : Bool :=
  a.length == b.length && ctDiff a b == 0

/-- Modelled from the spec: the Hasher builder configuration —
algorithm (default Argon2id), version (default 19, the primitive's
current revision), cost defaults 19456 KiB / 2 iterations / 1 lane,
hash length default 32, auto-generated salt length default 16,
optional custom salt, optional secret. -/
structure Hasher where
  alg : Algorithm
  version : Nat
  memCost : Nat
  timeCost : Nat
  parallelism : Nat
  hashLength : Nat
  saltLength : Nat
  customSalt : Option (List Nat)
  secret : Option Secret
deriving DecidableEq, Repr

/-- Modelled from the spec: the default Hasher configuration. -/
def Hasher.default : Hasher :=
  ⟨.Argon2id, 19, 19456, 2, 1, 32, 16, none, none⟩

/-- Modelled from the spec: the terminal `hash` operation on the success
path — resolve the salt (custom salt if configured, else the freshly
drawn random bytes supplied by the external randomness source), invoke
the primitive, and wrap the output with the resolved parameters into a
Hash Record. -/
def Hasher.hashWith (derive : DeriveFn) (h : Hasher) (password fresh : List Nat) :
    HashData :=
  let salt := h.customSalt.getD fresh
  { alg := h.alg
    version := h.version
    memCost := h.memCost
    timeCost := h.timeCost
    parallelism := h.parallelism
    salt := salt
    key := derive h.alg h.version h.memCost h.timeCost h.parallelism password salt
      h.secret h.hashLength }

/-- Modelled from the spec: `verify` — re-derive with the record's own
stored parameters and no secret, requesting a candidate key of the
stored length K, and compare in constant time. -/
def HashData.verifyWith (derive : DeriveFn) (r : HashData) (password : List Nat) :
    Bool :=
  ctEq
    (derive r.alg r.version r.memCost r.timeCost r.parallelism password r.salt
      none r.key.length)
    r.key

/-- Modelled from the spec: `verify_with_secret` — identical to `verify`
but supplying the secret's bytes to the primitive. -/
def HashData.verifyWithSecret (derive : DeriveFn) (r : HashData)
    (password : List Nat) (secret : Secret) : Bool :=
  ctEq
    (derive r.alg r.version r.memCost r.timeCost r.parallelism password r.salt
      (some secret) r.key.length)
    r.key

/-- Bounds the external primitive imposes on builder parameters; the
exact values belong to the primitive's own specification. -/
structure Bounds where
  minMemory : Nat
  minSalt : Nat
deriving DecidableEq, Repr

/-- Modelled from the spec: set the memory cost, failing fast when the
argument is below the primitive's minimum; never clamped. -/
def Hasher.withMemoryCost (B : Bounds) (m : Nat) (h : Hasher) :
    Except Argon2Error Hasher :=
  if m < B.minMemory then .error .invalidMemoryCost
  else .ok { h with memCost := m }

/-- Modelled from the spec: set the time cost, failing fast on zero
(cost parameters are positive integers); never clamped. -/
def Hasher.withTimeCost (t : Nat) (h : Hasher) : Except Argon2Error Hasher :=
  if t = 0 then .error .invalidTimeCost
  else .ok { h with timeCost := t }

/-- Modelled from the spec: set the lane count, failing fast on zero;
never clamped. -/
def Hasher.withParallelism (p : Nat) (h : Hasher) : Except Argon2Error Hasher :=
  if p = 0 then .error .invalidParallelism
  else .ok { h with parallelism := p }

/-- Modelled from the spec: set a caller-supplied salt, failing fast when
it is shorter than the primitive's minimum; never truncated or padded. -/
def Hasher.withCustomSalt (B : Bounds) (s : List Nat) (h : Hasher) :
    Except Argon2Error Hasher :=
  if s.length < B.minSalt then .error .invalidSaltLength
  else .ok { h with customSalt := some s }

/-- Modelled from the spec: set the derived-key length, failing fast on
zero; never clamped. -/
def Hasher.withHashLength (k : Nat) (h : Hasher) : Except Argon2Error Hasher :=
  if k = 0 then .error .invalidHashLength
  else .ok { h with hashLength := k }

/-- Deterministic stand-in for the external primitive, used only to
instantiate interface hypotheses at concrete inputs: it honours the
output-length and byte-range contracts and depends on password, salt and
secret. -/
def mixNat (seed : Nat) (l : List Nat) : Nat :=
  l.foldl (fun s b => (s * 131 + b + 1) % 100003) seed

/-- Concrete `DeriveFn` satisfying the interface assumptions. -/
def mockDerive : DeriveFn := fun _ _ _ _ _ pw salt sec len =>
  (List.range len).map fun i =>
    (mixNat 1 pw * 3 + mixNat 2 salt * 5 +
      (match sec with
       | none => 0
       | some s => mixNat 3 s * 7 + 1) + i) % 256

/-- The Hasher configuration used to witness the secret-sensitivity
claim: the default configuration with a secret and a short derived key. -/
def secretHasher : Hasher :=
  { Hasher.default with secret := some [5, 6], hashLength := 4 }

/-- The bytes of the ASCII string `password`. -/
def pwBytes : List Nat := [112, 97, 115, 115, 119, 111, 114, 100]

/-- The bytes of the ASCII string `Password`. -/
def pwBytesUpper : List Nat := [80, 97, 115, 115, 119, 111, 114, 100]

theorem decChar_isDigit (d : Nat) (h : d < 10) : isDecDigit (decChar d) = true := by
  interval_cases d <;> decide

theorem digitVal_decChar (d : Nat) (h : d < 10) : digitVal (decChar d) = d := by
  interval_cases d <;> decide

theorem natDigitsAux_digits (fuel : Nat) :
    ∀ n c, c ∈ natDigitsAux fuel n → isDecDigit c = true := by
  induction fuel with
  | zero =>
      intro n c hc
      simp only [natDigitsAux, List.mem_singleton] at hc
      subst hc
      exact decChar_isDigit _ (Nat.mod_lt _ (by omega))
  | succ fuel ih =>
      intro n c hc
      simp only [natDigitsAux] at hc
      by_cases hn : n < 10
      · rw [if_pos hn] at hc
        simp only [List.mem_singleton] at hc
        subst hc
        exact decChar_isDigit _ hn
      · rw [if_neg hn] at hc
        rcases List.mem_append.mp hc with h1 | h2
        · exact ih _ _ h1
        · simp only [List.mem_singleton] at h2
          subst h2
          exact decChar_isDigit _ (Nat.mod_lt _ (by omega))

theorem natDigits_digits (n : Nat) : ∀ c ∈ natDigits n, isDecDigit c = true :=
  fun c hc => natDigitsAux_digits n n c hc

theorem natDigitsAux_ne_nil (fuel n : Nat) : natDigitsAux fuel n ≠ [] := by
  cases fuel with
  | zero => simp [natDigitsAux]
  | succ fuel =>
      simp only [natDigitsAux]
      by_cases hn : n < 10
      · rw [if_pos hn]; simp
      · rw [if_neg hn]; simp

theorem parseNatFrom_digits (fuel : Nat) :
    ∀ n acc rest, n ≤ fuel →
      parseNatFrom acc (natDigitsAux fuel n ++ rest) =
      parseNatFrom (acc * 10 ^ (natDigitsAux fuel n).length + n) rest := by
  induction fuel with
  | zero =>
      intro n acc rest hn
      interval_cases n
      simp [natDigitsAux, parseNatFrom, decChar_isDigit, digitVal_decChar]
  | succ fuel ih =>
      intro n acc rest hn
      by_cases h10 : n < 10
      · simp only [natDigitsAux, if_pos h10, List.singleton_append, parseNatFrom,
          decChar_isDigit n h10, if_pos, List.length_singleton, pow_one]
        rw [digitVal_decChar n h10]
      · simp only [natDigitsAux, if_neg h10, List.append_assoc, List.singleton_append]
        rw [ih (n / 10) acc _ (by omega)]
        have hd : isDecDigit (decChar (n % 10)) = true :=
          decChar_isDigit _ (Nat.mod_lt _ (by omega))
        simp only [parseNatFrom, hd, if_pos, List.length_append,
          List.length_singleton]
        rw [digitVal_decChar _ (Nat.mod_lt _ (by omega))]
        congr 1
        have : (acc * 10 ^ (natDigitsAux fuel (n / 10)).length + n / 10) * 10 =
            acc * 10 ^ ((natDigitsAux fuel (n / 10)).length + 1) + n / 10 * 10 := by
          ring
        rw [this]
        omega

theorem parseNat_natDigits (n : Nat) : parseNat? (natDigits n) = some n := by
  have hne : natDigits n ≠ [] := natDigitsAux_ne_nil n n
  rw [parseNat?, if_neg (by simpa [List.isEmpty_iff] using hne)]
  have := parseNatFrom_digits n n 0 [] (le_refl n)
  simpa [natDigits, parseNatFrom] using this

theorem b64Index_b64Char : ∀ k, k < 64 → b64Index (b64Char k) = some k := by decide

theorem b64Char_isSome (k : Nat) : (b64Index (b64Char k)).isSome = true := by
  by_cases hk : k < 64
  · rw [b64Index_b64Char k hk]; rfl
  · have : b64Char k = '/' := by
      unfold b64Char
      rw [if_neg (by omega), if_neg (by omega), if_neg (by omega), if_neg (by omega)]
    rw [this]; decide

theorem b64Encode_alphabet :
    ∀ l, ∀ c ∈ b64Encode l, (b64Index c).isSome = true
  | [] => by intro c hc; simp [b64Encode] at hc
  | [a] => by
      intro c hc
      simp only [b64Encode, List.mem_cons, List.not_mem_nil, or_false] at hc
      rcases hc with h | h <;> (subst h; exact b64Char_isSome _)
  | [a, b] => by
      intro c hc
      simp only [b64Encode, List.mem_cons, List.not_mem_nil, or_false] at hc
      rcases hc with h | h | h <;> (subst h; exact b64Char_isSome _)
  | a :: b :: c0 :: rest => by
      intro c hc
      simp only [b64Encode, List.mem_cons] at hc
      rcases hc with h | h | h | h | h
      · subst h; exact b64Char_isSome _
      · subst h; exact b64Char_isSome _
      · subst h; exact b64Char_isSome _
      · subst h; exact b64Char_isSome _
      · exact b64Encode_alphabet rest c h

theorem b64_decode_encode :
    ∀ l, (∀ b ∈ l, b < 256) → b64Decode (b64Encode l) = some l
  | [] => by intro _; rfl
  | [a] => by
      intro h
      have ha : a < 256 := h a (by simp)
      simp only [b64Encode, b64Decode]
      rw [b64Index_b64Char (a / 4) (by omega),
        b64Index_b64Char (a % 4 * 16) (by omega)]
      simp only [Option.some.injEq, List.cons.injEq, and_true]
      omega
  | [a, b] => by
      intro h
      have ha : a < 256 := h a (by simp)
      have hb : b < 256 := h b (by simp)
      simp only [b64Encode, b64Decode]
      rw [b64Index_b64Char (a / 4) (by omega),
        b64Index_b64Char (a % 4 * 16 + b / 16) (by omega),
        b64Index_b64Char (b % 16 * 4) (by omega)]
      simp only [Option.some.injEq, List.cons.injEq, and_true]
      constructor <;> omega
  | a :: b :: c :: rest => by
      intro h
      have ha : a < 256 := h a (by simp)
      have hb : b < 256 := h b (by simp)
      have hc : c < 256 := h c (by simp)
      have hrest : ∀ x ∈ rest, x < 256 := fun x hx => h x (by simp [hx])
      simp only [b64Encode, b64Decode]
      rw [b64Index_b64Char (a / 4) (by omega),
        b64Index_b64Char (a % 4 * 16 + b / 16) (by omega),
        b64Index_b64Char (b % 16 * 4 + c / 64) (by omega),
        b64Index_b64Char (c % 64) (by omega),
        b64_decode_encode rest hrest]
      simp only [Option.some.injEq, List.cons.injEq]
      refine ⟨by omega, by omega, by omega, trivial⟩

theorem splitOn_ne_nil (sep : Char) : ∀ l, splitOn sep l ≠ []
  | [] => by simp [splitOn]
  | c :: rest => by
      simp only [splitOn]
      by_cases h : c = sep
      · rw [if_pos h]; simp
      · rw [if_neg h]
        rcases hrec : splitOn sep rest with _ | ⟨f, fs⟩
        · simp
        · simp

theorem splitOn_sep_cons (sep : Char) (l : List Char) :
    splitOn sep (sep :: l) = [] :: splitOn sep l := by
  simp [splitOn]

theorem splitOn_no_sep (sep : Char) :
    ∀ xs, sep ∉ xs → splitOn sep xs = [xs]
  | [] => by intro _; rfl
  | c :: rest => by
      intro h
      have hc : c ≠ sep := fun he => h (by simp [he])
      have hrest : sep ∉ rest := fun hm => h (by simp [hm])
      simp only [splitOn, if_neg hc, splitOn_no_sep sep rest hrest]

theorem splitOn_append (sep : Char) :
    ∀ xs ys, sep ∉ xs → splitOn sep (xs ++ sep :: ys) = xs :: splitOn sep ys
  | [] => by
      intro ys _
      simpa using splitOn_sep_cons sep ys
  | c :: rest => by
      intro ys h
      have hc : c ≠ sep := fun he => h (by simp [he])
      have hrest : sep ∉ rest := fun hm => h (by simp [hm])
      have ih := splitOn_append sep rest ys hrest
      simp only [List.cons_append, splitOn, if_neg hc]
      simp [ih]

theorem decDigit_ne (c x : Char) (hc : isDecDigit c = true)
    (hx : isDecDigit x = false) : c ≠ x := by
  intro h
  rw [h, hx] at hc
  exact Bool.false_ne_true hc

theorem dollar_not_mem_natDigits (n : Nat) : '$' ∉ natDigits n := by
  intro h
  have := natDigits_digits n _ h
  exact absurd this (by decide)

theorem comma_not_mem_natDigits (n : Nat) : ',' ∉ natDigits n := by
  intro h
  have := natDigits_digits n _ h
  exact absurd this (by decide)

theorem dollar_not_mem_tag (a : Algorithm) : '$' ∉ a.tag := by
  cases a <;> decide

theorem dollar_not_mem_versionField (v : Nat) : '$' ∉ versionField v := by
  intro h
  simp only [versionField, List.mem_cons] at h
  rcases h with h | h | h
  · exact absurd h (by decide)
  · exact absurd h (by decide)
  · exact dollar_not_mem_natDigits v h

theorem dollar_not_mem_paramsField (m t p : Nat) :
    '$' ∉ paramsField m t p := by
  intro h
  simp only [paramsField, List.mem_append, List.mem_cons] at h
  rcases h with (h | h | h) | h | (h | h | h) | h | h | h | h
  all_goals first
    | exact absurd h (by decide)
    | exact dollar_not_mem_natDigits _ h

theorem b64_not_dollar (l : List Nat) : '$' ∉ b64Encode l := by
  intro h
  have := b64Encode_alphabet l _ h
  exact absurd this (by decide)

theorem ofTag_tag (a : Algorithm) : Algorithm.ofTag a.tag = some a := by
  cases a <;> decide

theorem parseVersion_versionField (v : Nat) :
    parseVersion (versionField v) = some v := by
  simp [versionField, parseVersion, parseNat_natDigits]

theorem parseKeyVal_self (key : Char) (n : Nat) (rest : List Char)
    (h : rest = natDigits n) :
    parseKeyVal key (key :: '=' :: rest) = some n := by
  subst h
  simp [parseKeyVal, parseNat_natDigits]

theorem splitOn_paramsField (m t p : Nat) :
    splitOn ',' (paramsField m t p) =
      ['m' :: '=' :: natDigits m, 't' :: '=' :: natDigits t,
        'p' :: '=' :: natDigits p] := by
  have hm : ',' ∉ 'm' :: '=' :: natDigits m := by
    intro h
    simp only [List.mem_cons] at h
    rcases h with h | h | h
    · exact absurd h (by decide)
    · exact absurd h (by decide)
    · exact comma_not_mem_natDigits m h
  have ht : ',' ∉ 't' :: '=' :: natDigits t := by
    intro h
    simp only [List.mem_cons] at h
    rcases h with h | h | h
    · exact absurd h (by decide)
    · exact absurd h (by decide)
    · exact comma_not_mem_natDigits t h
  have hp : ',' ∉ 'p' :: '=' :: natDigits p := by
    intro h
    simp only [List.mem_cons] at h
    rcases h with h | h | h
    · exact absurd h (by decide)
    · exact absurd h (by decide)
    · exact comma_not_mem_natDigits p h
  rw [paramsField, splitOn_append ',' _ _ hm,
    splitOn_append ',' _ _ ht, splitOn_no_sep ',' _ hp]

theorem parseParams_paramsField (m t p : Nat) :
    parseParams (paramsField m t p) = some (m, t, p) := by
  rw [parseParams, splitOn_paramsField]
  simp only [parseKeyVal_self 'm' m _ rfl, parseKeyVal_self 't' t _ rfl,
    parseKeyVal_self 'p' p _ rfl]

theorem splitOn_toString (r : HashData) :
    splitOn '$' r.toString =
      [[], r.alg.tag, versionField r.version,
        paramsField r.memCost r.timeCost r.parallelism,
        b64Encode r.salt, b64Encode r.key] := by
  rw [HashData.toString, splitOn_sep_cons,
    splitOn_append '$' _ _ (dollar_not_mem_tag r.alg),
    splitOn_append '$' _ _ (dollar_not_mem_versionField r.version),
    splitOn_append '$' _ _ (dollar_not_mem_paramsField _ _ _),
    splitOn_append '$' _ _ (b64_not_dollar r.salt),
    splitOn_no_sep '$' _ (b64_not_dollar r.key)]

theorem parse_toString (r : HashData) (hs : ∀ b ∈ r.salt, b < 256)
    (hk : ∀ b ∈ r.key, b < 256) :
    parseData r.toString = .ok r := by
  rw [parseData, splitOn_toString]
  simp only [parseFields, ofTag_tag, parseVersion_versionField,
    parseParams_paramsField, b64_decode_encode r.salt hs,
    b64_decode_encode r.key hk]

theorem or_zero_left (a b : Nat) (h : a ||| b = 0) : a = 0 := by
  apply Nat.eq_of_testBit_eq
  intro i
  have hbit := congrArg (fun x => Nat.testBit x i) h
  simp only [Nat.testBit_or] at hbit
  rcases Bool.or_eq_false_iff.mp (by simpa using hbit) with ⟨h1, h2⟩
  simpa using h1

theorem or_zero_right (a b : Nat) (h : a ||| b = 0) : b = 0 := by
  apply Nat.eq_of_testBit_eq
  intro i
  have hbit := congrArg (fun x => Nat.testBit x i) h
  simp only [Nat.testBit_or] at hbit
  rcases Bool.or_eq_false_iff.mp (by simpa using hbit) with ⟨h1, h2⟩
  simpa using h2

theorem ctDiff_self : ∀ a : List Nat, ctDiff a a = 0
  | [] => rfl
  | x :: xs => by
      simp only [ctDiff, Nat.xor_self, ctDiff_self xs]
      rfl

theorem ctDiff_eq_zero :
    ∀ a b : List Nat, a.length = b.length → (ctDiff a b = 0 ↔ a = b)
  | [], [] => by simp [ctDiff]
  | [], _ :: _ => by intro h; simp at h
  | _ :: _, [] => by intro h; simp at h
  | x :: xs, y :: ys => by
      intro hlen
      simp only [List.length_cons, Nat.succ.injEq] at hlen
      constructor
      · intro h
        have hx : x ^^^ y = 0 := or_zero_left _ _ h
        have hrest : ctDiff xs ys = 0 := or_zero_right _ _ h
        have hxy : x = y := Nat.xor_eq_zero.mp hx
        have := (ctDiff_eq_zero xs ys hlen).mp hrest
        simp [hxy, this]
      · intro h
        injection h with h1 h2
        subst h1; subst h2
        exact ctDiff_self (x :: xs)

theorem ctEq_eq_true_iff (a b : List Nat) : ctEq a b = true ↔ a = b := by
  rw [ctEq]
  constructor
  · intro h
    rcases Bool.and_eq_true_iff.mp h with ⟨h1, h2⟩
    have hlen : a.length = b.length := by simpa using h1
    exact (ctDiff_eq_zero a b hlen).mp (by simpa using h2)
  · rintro rfl
    simp [ctDiff_self a]

theorem ctEq_self (a : List Nat) : ctEq a a = true :=
  (ctEq_eq_true_iff a a).mpr rfl

theorem ctEq_eq_false (a b : List Nat) (h : a ≠ b) : ctEq a b = false := by
  rcases hb : ctEq a b with _ | _
  · rfl
  · exact absurd ((ctEq_eq_true_iff a b).mp hb) h

theorem ctExaminations_min :
    ∀ a b : List Nat, ctExaminations a b = min a.length b.length
  | [], [] => rfl
  | [], _ :: _ => rfl
  | _ :: _, [] => rfl
  | x :: xs, y :: ys => by
      simp only [ctExaminations, ctExaminations_min xs ys, List.length_cons]
      omega

theorem mockDerive_len : DeriveLenOk mockDerive := by
  intro a v m t p pw salt sec len
  simp [mockDerive]

theorem mockDerive_bytes : DeriveBytesOk mockDerive := by
  intro a v m t p pw salt sec len b hb
  simp only [mockDerive, List.mem_map] at hb
  obtain ⟨i, _, rfl⟩ := hb
  exact Nat.mod_lt _ (by omega)

theorem hashWith_verify_self (derive : DeriveFn) (hlen : DeriveLenOk derive)
    (h : Hasher) (p fresh : List Nat) (hsec : h.secret = none) :
    (h.hashWith derive p fresh).verifyWith derive p = true := by
  simp only [Hasher.hashWith, HashData.verifyWith, hsec,
    hlen h.alg h.version h.memCost h.timeCost h.parallelism p
      (h.customSalt.getD fresh) none h.hashLength]
  exact ctEq_self _

theorem hashWith_verify_false (derive : DeriveFn) (hlen : DeriveLenOk derive)
    (h : Hasher) (p1 p2 fresh : List Nat) (hsec : h.secret = none)
    (hd : derive h.alg h.version h.memCost h.timeCost h.parallelism p2
        (h.customSalt.getD fresh) none h.hashLength ≠
      derive h.alg h.version h.memCost h.timeCost h.parallelism p1
        (h.customSalt.getD fresh) none h.hashLength) :
    (h.hashWith derive p1 fresh).verifyWith derive p2 = false := by
  simp only [Hasher.hashWith, HashData.verifyWith, hsec,
    hlen h.alg h.version h.memCost h.timeCost h.parallelism p1
      (h.customSalt.getD fresh) none h.hashLength]
  exact ctEq_eq_false _ _ hd

theorem hashWith_verifySecret_self (derive : DeriveFn) (hlen : DeriveLenOk derive)
    (h : Hasher) (p fresh : List Nat) (s : Secret) (hsec : h.secret = some s) :
    (h.hashWith derive p fresh).verifyWithSecret derive p s = true := by
  simp only [Hasher.hashWith, HashData.verifyWithSecret, hsec,
    hlen h.alg h.version h.memCost h.timeCost h.parallelism p
      (h.customSalt.getD fresh) (some s) h.hashLength]
  exact ctEq_self _

theorem hashWith_secret_verify_false (derive : DeriveFn) (hlen : DeriveLenOk derive)
    (h : Hasher) (p fresh : List Nat) (s : Secret) (hsec : h.secret = some s)
    (hd : derive h.alg h.version h.memCost h.timeCost h.parallelism p
        (h.customSalt.getD fresh) none h.hashLength ≠
      derive h.alg h.version h.memCost h.timeCost h.parallelism p
        (h.customSalt.getD fresh) (some s) h.hashLength) :
    (h.hashWith derive p fresh).verifyWith derive p = false := by
  simp only [Hasher.hashWith, HashData.verifyWith, hsec,
    hlen h.alg h.version h.memCost h.timeCost h.parallelism p
      (h.customSalt.getD fresh) (some s) h.hashLength]
  exact ctEq_eq_false _ _ hd

theorem hashWith_wrongSecret_false (derive : DeriveFn) (hlen : DeriveLenOk derive)
    (h : Hasher) (p fresh : List Nat) (s ws : Secret) (hsec : h.secret = some s)
    (hd : derive h.alg h.version h.memCost h.timeCost h.parallelism p
        (h.customSalt.getD fresh) (some ws) h.hashLength ≠
      derive h.alg h.version h.memCost h.timeCost h.parallelism p
        (h.customSalt.getD fresh) (some s) h.hashLength) :
    (h.hashWith derive p fresh).verifyWithSecret derive p ws = false := by
  simp only [Hasher.hashWith, HashData.verifyWithSecret, hsec,
    hlen h.alg h.version h.memCost h.timeCost h.parallelism p
      (h.customSalt.getD fresh) (some s) h.hashLength]
  exact ctEq_eq_false _ _ hd

theorem b64Encode_ne_nil : ∀ l : List Nat, l ≠ [] → b64Encode l ≠ []
  | [] => fun h => absurd rfl h
  | [_] => fun _ => by simp [b64Encode]
  | [_, _] => fun _ => by simp [b64Encode]
  | _ :: _ :: _ :: _ => fun _ => by simp [b64Encode]

theorem toString_inj (r1 r2 : HashData)
    (hs1 : ∀ b ∈ r1.salt, b < 256) (hk1 : ∀ b ∈ r1.key, b < 256)
    (hs2 : ∀ b ∈ r2.salt, b < 256) (hk2 : ∀ b ∈ r2.key, b < 256)
    (h : r1.toString = r2.toString) : r1 = r2 := by
  have h1 := parse_toString r1 hs1 hk1
  have h2 := parse_toString r2 hs2 hk2
  rw [h, h2] at h1
  injection h1 with h1
  exact h1.symm

/-- C1: for every password p and every Hasher configuration h for which
the hash operation succeeds (success is modelled by hashing against a
primitive that honours its output-length contract) and in which no secret
was configured, verifying the resulting Hash Record against the same
password returns true. -/
theorem C1_hash_verify (derive : DeriveFn) (hlen : DeriveLenOk derive)
    (h : Hasher) (p fresh : List Nat) (hsec : h.secret = none) :
    (h.hashWith derive p fresh).verifyWith derive p = true :=
  hashWith_verify_self derive hlen h p fresh hsec

/-- Witness for C1: the default configuration hashing the bytes of
`password` with a concrete primitive verifies that same password. -/
theorem C1_witness :
    (Hasher.default.hashWith mockDerive pwBytes
      (List.replicate 16 0)).verifyWith mockDerive pwBytes = true :=
  C1_hash_verify mockDerive mockDerive_len Hasher.default pwBytes
    (List.replicate 16 0) rfl

/-- C2: for every valid Hash Record r (salt and key are byte sequences),
parsing its canonical string reconstructs a record equal to r in every
field, and for every string produced by this encoder, decoding then
re-encoding is byte-identical to it. -/
theorem C2_roundtrip (r : HashData) (hs : ∀ b ∈ r.salt, b < 256)
    (hk : ∀ b ∈ r.key, b < 256) :
    parseData r.toString = .ok r ∧
    Except.map HashData.toString (parseData r.toString) = .ok r.toString := by
  have h := parse_toString r hs hk
  exact ⟨h, by rw [h]; rfl⟩

/-- Witness for C2: round-trip at a concrete record. -/
theorem C2_witness :
    parseData (HashData.toString
      ⟨.Argon2id, 19, 19456, 2, 1, [1, 2], [3, 4, 5]⟩) =
      .ok ⟨.Argon2id, 19, 19456, 2, 1, [1, 2], [3, 4, 5]⟩ :=
  (C2_roundtrip ⟨.Argon2id, 19, 19456, 2, 1, [1, 2], [3, 4, 5]⟩
    (by decide) (by decide)).1

/-- C3: a record produced by a hasher configured with secret s fails
plain verification, succeeds under `verify_with_secret` with s, and fails
with any wrong secret — under the spec's zero-collision reading of the
primitive, rendered as the hypotheses that the derived keys at the
differing secret inputs differ. -/
theorem C3_secret_sensitivity (derive : DeriveFn) (hlen : DeriveLenOk derive)
    (h : Hasher) (p fresh : List Nat) (s ws : Secret) (hsec : h.secret = some s)
    (hd1 : derive h.alg h.version h.memCost h.timeCost h.parallelism p
        (h.customSalt.getD fresh) none h.hashLength ≠
      derive h.alg h.version h.memCost h.timeCost h.parallelism p
        (h.customSalt.getD fresh) (some s) h.hashLength)
    (hd2 : derive h.alg h.version h.memCost h.timeCost h.parallelism p
        (h.customSalt.getD fresh) (some ws) h.hashLength ≠
      derive h.alg h.version h.memCost h.timeCost h.parallelism p
        (h.customSalt.getD fresh) (some s) h.hashLength) :
    (h.hashWith derive p fresh).verifyWith derive p = false ∧
    (h.hashWith derive p fresh).verifyWithSecret derive p s = true ∧
    (h.hashWith derive p fresh).verifyWithSecret derive p ws = false :=
  ⟨hashWith_secret_verify_false derive hlen h p fresh s hsec hd1,
   hashWith_verifySecret_self derive hlen h p fresh s hsec,
   hashWith_wrongSecret_false derive hlen h p fresh s ws hsec hd2⟩

/-- Witness for C3 at concrete inputs: a secret-configured hasher rejects
the bare password, accepts the right secret, rejects a wrong one. -/
theorem C3_witness :
    (secretHasher.hashWith mockDerive [1, 2] [3, 4]).verifyWith mockDerive
      [1, 2] = false ∧
    (secretHasher.hashWith mockDerive [1, 2] [3, 4]).verifyWithSecret
      mockDerive [1, 2] [5, 6] = true ∧
    (secretHasher.hashWith mockDerive [1, 2] [3, 4]).verifyWithSecret
      mockDerive [1, 2] [9, 9] = false :=
  C3_secret_sensitivity mockDerive mockDerive_len secretHasher [1, 2] [3, 4]
    [5, 6] [9, 9] rfl (by decide) (by decide)

/-- C4: decoding a malformed canonical string — wrong field count,
unknown algorithm tag, missing or reordered `m=`/`t=`/`p=` keys,
non-numeric cost value, or invalid base64 — returns a format error
identifying the failing field and never a record; the decoder is a total
function, so no panic or out-of-bounds access is possible, and a record
is only built once every field has validated.  The two mandated strings
(missing `p=`; unknown tag) are rejected with the params and algorithm
errors respectively. -/
theorem C4_malformed_rejection :
    parseData ("$argon2id$v=19$m=19456,t=2$salt$hash".toList) =
      .error .invalidParams ∧
    parseData ("$unknownalgo$v=19$m=1,t=1,p=1$AA$AA".toList) =
      .error .unknownAlgorithm ∧
    parseData ("$argon2id$v=19$m=1,t=1,p=1$AA".toList) =
      .error .invalidFormat ∧
    parseData ("$argon2id$v=19$m=1,t=1,p=1$AA$AA$AA".toList) =
      .error .invalidFormat ∧
    parseData ("$argon2id$v=x$m=1,t=1,p=1$AA$AA".toList) =
      .error .invalidVersion ∧
    parseData ("$argon2id$19$m=1,t=1,p=1$AA$AA".toList) =
      .error .invalidVersion ∧
    parseData ("$argon2id$v=19$t=2,m=19456,p=1$AA$AA".toList) =
      .error .invalidParams ∧
    parseData ("$argon2id$v=19$m=abc,t=1,p=1$AA$AA".toList) =
      .error .invalidParams ∧
    parseData ("$argon2id$v=19$m=1,t=1,p=1$A!$AA".toList) =
      .error .invalidSaltEncoding ∧
    parseData ("$argon2id$v=19$m=1,t=1,p=1$AA$A".toList) =
      .error .invalidHashEncoding := by
  refine ⟨?_, ?_, ?_, ?_, ?_, ?_, ?_, ?_, ?_, ?_⟩ <;> rfl

/-- C5: the canonical encoding is exactly the dollar-delimited field
sequence in fixed order — algorithm tag (one of the three Argon2 tags),
then `v=<version>`, then the single comma-joined
`m=<memory>,t=<time>,p=<parallelism>` field, then salt and derived key
each in unpadded RFC 4648 standard-alphabet base64 (every character in
the alphabet, no `=` padding); the final field is the nonempty key
rendering, so the string has no trailing delimiter. -/
theorem C5_encoding_format (r : HashData) (hkey : r.key ≠ []) :
    splitOn '$' r.toString =
      [[], r.alg.tag, versionField r.version,
        paramsField r.memCost r.timeCost r.parallelism,
        b64Encode r.salt, b64Encode r.key] ∧
    (r.alg.tag = "argon2d".toList ∨ r.alg.tag = "argon2i".toList ∨
      r.alg.tag = "argon2id".toList) ∧
    splitOn ',' (paramsField r.memCost r.timeCost r.parallelism) =
      ['m' :: '=' :: natDigits r.memCost, 't' :: '=' :: natDigits r.timeCost,
        'p' :: '=' :: natDigits r.parallelism] ∧
    (∀ c ∈ b64Encode r.salt, (b64Index c).isSome = true) ∧
    (∀ c ∈ b64Encode r.key, (b64Index c).isSome = true) ∧
    '=' ∉ b64Encode r.salt ∧ '=' ∉ b64Encode r.key ∧
    b64Encode r.key ≠ [] := by
  refine ⟨splitOn_toString r, ?_, splitOn_paramsField _ _ _,
    b64Encode_alphabet r.salt, b64Encode_alphabet r.key, ?_, ?_,
    b64Encode_ne_nil _ hkey⟩
  · cases r.alg
    · exact Or.inl rfl
    · exact Or.inr (Or.inl rfl)
    · exact Or.inr (Or.inr rfl)
  · intro hmem
    have := b64Encode_alphabet r.salt _ hmem
    exact absurd this (by decide)
  · intro hmem
    have := b64Encode_alphabet r.key _ hmem
    exact absurd this (by decide)

/-- Witness for C5: field decomposition of a concrete record's
encoding. -/
theorem C5_witness :
    splitOn '$' (HashData.toString ⟨.Argon2i, 19, 8, 1, 1, [255], [0, 1]⟩) =
      [[], "argon2i".toList, versionField 19, paramsField 8 1 1,
        b64Encode [255], b64Encode [0, 1]] :=
  (C5_encoding_format ⟨.Argon2i, 19, 8, 1, 1, [255], [0, 1]⟩ (by decide)).1

/-- C6: a wrong password is reported as the boolean false, never as an
error — under the spec's zero-collision reading, rendered as the
hypothesis that the primitive's outputs at the two passwords differ —
while the original password still verifies as true. -/
theorem C6_wrong_password (derive : DeriveFn) (hlen : DeriveLenOk derive)
    (h : Hasher) (p1 p2 fresh : List Nat) (hsec : h.secret = none)
    (hd : derive h.alg h.version h.memCost h.timeCost h.parallelism p2
        (h.customSalt.getD fresh) none h.hashLength ≠
      derive h.alg h.version h.memCost h.timeCost h.parallelism p1
        (h.customSalt.getD fresh) none h.hashLength) :
    (h.hashWith derive p1 fresh).verifyWith derive p2 = false ∧
    (h.hashWith derive p1 fresh).verifyWith derive p1 = true :=
  ⟨hashWith_verify_false derive hlen h p1 p2 fresh hsec hd,
   hashWith_verify_self derive hlen h p1 fresh hsec⟩

/-- Witness for C6: the claim's concrete scenario — a default-configured
hash of `password` rejects `Password` and accepts `password`. -/
theorem C6_witness :
    (Hasher.default.hashWith mockDerive pwBytes
      (List.replicate 16 0)).verifyWith mockDerive pwBytesUpper = false ∧
    (Hasher.default.hashWith mockDerive pwBytes
      (List.replicate 16 0)).verifyWith mockDerive pwBytes = true :=
  C6_wrong_password mockDerive mockDerive_len Hasher.default pwBytes
    pwBytesUpper (List.replicate 16 0) rfl (by decide)

/-- C7: with a custom salt, hashing is deterministic — the two records
and their encoded strings are identical whatever fresh randomness was
drawn — and without one, distinct auto-generated salts (the encoding of
"overwhelming probability" once the external randomness is fixed) give
distinct encoded strings. -/
theorem C7_salt_determinism (derive : DeriveFn) (hbytes : DeriveBytesOk derive)
    (h : Hasher) (p cs f1 f2 : List Nat) (hcs : h.customSalt = some cs) :
    (h.hashWith derive p f1 = h.hashWith derive p f2 ∧
      (h.hashWith derive p f1).toString = (h.hashWith derive p f2).toString) ∧
    ∀ g : Hasher, g.customSalt = none → ∀ q u1 u2 : List Nat, u1 ≠ u2 →
      (∀ b ∈ u1, b < 256) → (∀ b ∈ u2, b < 256) →
      (g.hashWith derive q u1).toString ≠ (g.hashWith derive q u2).toString := by
  constructor
  · have heq : h.hashWith derive p f1 = h.hashWith derive p f2 := by
      simp [Hasher.hashWith, hcs]
    exact ⟨heq, by rw [heq]⟩
  · intro g hg q u1 u2 hne hb1 hb2 heq
    have hsalt1 : (g.hashWith derive q u1).salt = u1 := by
      simp [Hasher.hashWith, hg]
    have hsalt2 : (g.hashWith derive q u2).salt = u2 := by
      simp [Hasher.hashWith, hg]
    have hs1 : ∀ b ∈ (g.hashWith derive q u1).salt, b < 256 := by
      rw [hsalt1]; exact hb1
    have hs2 : ∀ b ∈ (g.hashWith derive q u2).salt, b < 256 := by
      rw [hsalt2]; exact hb2
    have hk1 : ∀ b ∈ (g.hashWith derive q u1).key, b < 256 := fun b hb =>
      hbytes g.alg g.version g.memCost g.timeCost g.parallelism q
        (g.customSalt.getD u1) g.secret g.hashLength b hb
    have hk2 : ∀ b ∈ (g.hashWith derive q u2).key, b < 256 := fun b hb =>
      hbytes g.alg g.version g.memCost g.timeCost g.parallelism q
        (g.customSalt.getD u2) g.secret g.hashLength b hb
    have hrec := toString_inj _ _ hs1 hk1 hs2 hk2 heq
    rw [hrec, hsalt2] at hsalt1
    exact hne hsalt1.symm

/-- Witness for C7: concrete determinism under a fixed custom salt and
concrete distinctness of encodings under distinct auto salts. -/
theorem C7_witness :
    ({ Hasher.default with customSalt := some [1, 2, 3] }.hashWith mockDerive
        [7] [9] =
      { Hasher.default with customSalt := some [1, 2, 3] }.hashWith mockDerive
        [7] [8]) ∧
    (Hasher.default.hashWith mockDerive [7] [0]).toString ≠
      (Hasher.default.hashWith mockDerive [7] [1]).toString := by
  have h := C7_salt_determinism mockDerive mockDerive_bytes
    { Hasher.default with customSalt := some [1, 2, 3] } [7] [1, 2, 3] [9] [8]
    rfl
  exact ⟨h.1.1,
    h.2 Hasher.default rfl [7] [0] [1] (by decide) (by decide) (by decide)⟩

/-- C8: every builder configuration method validates its single argument
against the primitive's accepted domain and fails fast with a
configuration error when it is out of range; an accepted value is stored
exactly as given, never clamped. -/
theorem C8_builder_validation (B : Bounds) (h : Hasher) :
    (∀ m, m < B.minMemory →
      h.withMemoryCost B m = .error .invalidMemoryCost) ∧
    (∀ m, B.minMemory ≤ m →
      h.withMemoryCost B m = .ok { h with memCost := m }) ∧
    (h.withParallelism 0 = .error .invalidParallelism) ∧
    (∀ p, 0 < p → h.withParallelism p = .ok { h with parallelism := p }) ∧
    (∀ s, s.length < B.minSalt →
      h.withCustomSalt B s = .error .invalidSaltLength) ∧
    (∀ s, B.minSalt ≤ s.length →
      h.withCustomSalt B s = .ok { h with customSalt := some s }) ∧
    (h.withHashLength 0 = .error .invalidHashLength) ∧
    (∀ k, 0 < k → h.withHashLength k = .ok { h with hashLength := k }) ∧
    (h.withTimeCost 0 = .error .invalidTimeCost) ∧
    (∀ t, 0 < t → h.withTimeCost t = .ok { h with timeCost := t }) := by
  refine ⟨?_, ?_, ?_, ?_, ?_, ?_, ?_, ?_, ?_, ?_⟩
  · intro m hm; rw [Hasher.withMemoryCost, if_pos hm]
  · intro m hm; rw [Hasher.withMemoryCost, if_neg (by omega)]
  · rw [Hasher.withParallelism, if_pos rfl]
  · intro p hp; rw [Hasher.withParallelism, if_neg (by omega)]
  · intro s hs; rw [Hasher.withCustomSalt, if_pos hs]
  · intro s hs; rw [Hasher.withCustomSalt, if_neg (by omega)]
  · rw [Hasher.withHashLength, if_pos rfl]
  · intro k hk; rw [Hasher.withHashLength, if_neg (by omega)]
  · rw [Hasher.withTimeCost, if_pos rfl]
  · intro t ht; rw [Hasher.withTimeCost, if_neg (by omega)]

/-- Witness for C8 against concrete primitive bounds: out-of-range
arguments are rejected, in-range ones stored unchanged. -/
theorem C8_witness :
    Hasher.default.withMemoryCost ⟨8, 8⟩ 7 = .error .invalidMemoryCost ∧
    Hasher.default.withMemoryCost ⟨8, 8⟩ 64 =
      .ok { Hasher.default with memCost := 64 } ∧
    Hasher.default.withParallelism 0 = .error .invalidParallelism ∧
    Hasher.default.withCustomSalt ⟨8, 8⟩ [1, 2] = .error .invalidSaltLength ∧
    Hasher.default.withHashLength 0 = .error .invalidHashLength := by
  have h := C8_builder_validation ⟨8, 8⟩ Hasher.default
  exact ⟨h.1 7 (by decide), h.2.1 64 (by decide), h.2.2.1,
    h.2.2.2.2.1 [1, 2] (by decide), h.2.2.2.2.2.2.1⟩

/-- C9: the verification comparison is constant-time and full-length —
its examination count on two K-byte inputs is exactly K whatever the
contents, depends only on the operand lengths (so not on the position of
the first mismatch), and on verify's actual operands (re-derived
candidate against stored key) it is the full stored-key length K. -/
theorem C9_constant_time (K : Nat) :
    (∀ a b : List Nat, a.length = K → b.length = K →
      ctExaminations a b = K) ∧
    (∀ a b a2 b2 : List Nat, a.length = a2.length → b.length = b2.length →
      ctExaminations a b = ctExaminations a2 b2) ∧
    (∀ derive : DeriveFn, DeriveLenOk derive → ∀ r : HashData,
      ∀ pw : List Nat,
      ctExaminations
        (derive r.alg r.version r.memCost r.timeCost r.parallelism pw r.salt
          none r.key.length) r.key = r.key.length) := by
  refine ⟨?_, ?_, ?_⟩
  · intro a b ha hb
    rw [ctExaminations_min, ha, hb, Nat.min_self]
  · intro a b a2 b2 h1 h2
    rw [ctExaminations_min, ctExaminations_min, h1, h2]
  · intro derive hlen r pw
    rw [ctExaminations_min,
      hlen r.alg r.version r.memCost r.timeCost r.parallelism pw r.salt none
        r.key.length,
      Nat.min_self]

/-- Witness for C9: a pair mismatching already at the first byte is still
examined in full. -/
theorem C9_witness : ctExaminations [0, 1, 2] [7, 1, 2] = 3 :=
  (C9_constant_time 3).1 [0, 1, 2] [7, 1, 2] rfl rfl

/-- C10: the salt and derived-key lengths are parameters of the `Hash`
type itself — any value of `Hash S K` has salt length S and key length K,
`fromStr` at type `Hash S K` rejects decoded buffers of any other length,
a default-configured hash has the lengths of `Hash 16 32`, and a hash
built with a custom salt has the lengths of `Hash cs.length 32` (here
with the configured hash length in place of 32). -/
theorem C10_length_typing :
    (∀ S K : Nat, ∀ s : List Char, ∀ h0 : Hash S K,
      Hash.fromStr S K s = .ok h0 →
        h0.data.salt.length = S ∧ h0.data.key.length = K) ∧
    (∀ S K : Nat, ∀ s : List Char, ∀ d : HashData, parseData s = .ok d →
      d.salt.length ≠ S →
      Hash.fromStr S K s = .error .saltLengthMismatch) ∧
    (∀ S K : Nat, ∀ s : List Char, ∀ d : HashData, parseData s = .ok d →
      d.salt.length = S → d.key.length ≠ K →
      Hash.fromStr S K s = .error .hashLengthMismatch) ∧
    (∀ derive : DeriveFn, DeriveLenOk derive → ∀ pw fresh : List Nat,
      fresh.length = 16 →
      (Hasher.default.hashWith derive pw fresh).salt.length = 16 ∧
      (Hasher.default.hashWith derive pw fresh).key.length = 32) ∧
    (∀ derive : DeriveFn, DeriveLenOk derive → ∀ h : Hasher,
      ∀ pw fresh cs : List Nat, h.customSalt = some cs →
      (h.hashWith derive pw fresh).salt.length = cs.length ∧
      (h.hashWith derive pw fresh).key.length = h.hashLength) := by
  refine ⟨fun S K s h0 _ => ⟨h0.salt_len, h0.key_len⟩, ?_, ?_, ?_, ?_⟩
  · intro S K s d hd hne
    simp only [Hash.fromStr, hd]
    rw [dif_neg hne]
  · intro S K s d hd hs hk
    simp only [Hash.fromStr, hd]
    rw [dif_pos hs, dif_neg hk]
  · intro derive hlen pw fresh hf
    constructor
    · simp [Hasher.hashWith, Hasher.default, hf]
    · simp [Hasher.hashWith, Hasher.default]
      exact hlen .Argon2id 19 19456 2 1 pw fresh none 32
  · intro derive hlen h pw fresh cs hcs
    constructor
    · simp [Hasher.hashWith, hcs]
    · simp [Hasher.hashWith,
        hlen h.alg h.version h.memCost h.timeCost h.parallelism pw
          (h.customSalt.getD fresh) h.secret h.hashLength]

/-- Witness for C10: a parsed record with a 3-byte salt is rejected at
type `Hash 5 2`, and a default-configured hash has the `Hash 16 32`
lengths. -/
theorem C10_witness :
    Hash.fromStr 5 2
      (HashData.toString ⟨.Argon2d, 19, 8, 1, 1, [1, 2, 3], [4, 5]⟩) =
      .error .saltLengthMismatch ∧
    (Hasher.default.hashWith mockDerive [1]
      (List.replicate 16 0)).salt.length = 16 ∧
    (Hasher.default.hashWith mockDerive [1]
      (List.replicate 16 0)).key.length = 32 := by
  have h := C10_length_typing
  refine ⟨h.2.1 5 2 _ ⟨.Argon2d, 19, 8, 1, 1, [1, 2, 3], [4, 5]⟩ rfl
    (by decide), ?_, ?_⟩
  · exact (h.2.2.2.1 mockDerive mockDerive_len [1] (List.replicate 16 0)
      (by decide)).1
  · exact (h.2.2.2.1 mockDerive mockDerive_len [1] (List.replicate 16 0)
      (by decide)).2

end Argon2Kdf
